import Mathlib

/-!
Verification of the rippled payment path discovery engine (Pathfinder) and
the PeerSet timer scaffolding, as a shallow embedding.

The Pathfinder header (src/src/ripple/app/paths/Pathfinder.h) provides the
data model (NodeType, PathType, PaymentType, PathRank, the addFlags
constants) and the call graph, but not the method bodies; those bodies are
modelled from the specification, and every such definition is marked
`Modelled from the spec:` in its doc comment.  PeerSet
(src/modules/ripple_app/peers/ripple_PeerSet.cpp) is embedded directly from
its source.
-/

namespace RippledPath

/-- Account identifier (a 160-bit id in the source; abstracted to Nat). -/
abbrev Account := Nat

/-- Currency code (a 160-bit code in the source; abstracted to Nat, with a
distinguished native sentinel). -/
abbrev Currency := Nat

/-- The native (XRP) currency sentinel. -/
def nativeCurrency : Currency := 0

/-- An Issue: a (currency, issuer) pair.  The native currency uses the
distinguished issuer 0. -/
structure Issue where
  currency : Currency
  issuer : Account
deriving DecidableEq, Repr

/-- A path element: either an account hop (target account, with implicit
currency/issuer continuity) or an order-book hop switching to a new Issue. -/
inductive STPathElement where
  | account (acc : Account)
  | book (out : Issue)
deriving DecidableEq, Repr

/-- A path is an ordered sequence of path elements; the source element is
implicit (the path anchors at the source account and source Issue). -/
abbrev STPath := List STPathElement

/-- NodeType, from the Pathfinder header: the role of a hop within a
path-type template. -/
inductive NodeType where
  | nt_SOURCE
  | nt_ACCOUNTS
  | nt_BOOKS
  | nt_XRP_BOOK
  | nt_DEST_BOOK
  | nt_DESTINATION
deriving DecidableEq, Repr

/-- PathType, from the Pathfinder header: a list of NodeTypes. -/
abbrev PathType := List NodeType

/-- PaymentType, from the Pathfinder header: the types of the source and
destination currencies of a request. -/
inductive PaymentType where
  | pt_XRP_to_XRP
  | pt_XRP_to_nonXRP
  | pt_nonXRP_to_XRP
  | pt_nonXRP_to_same
  | pt_nonXRP_to_nonXRP
deriving DecidableEq, Repr

/-- PathRank, from the Pathfinder header: quality and length are uint64 in
the source (only compared here, never overflowed), liquidity is a signed
STAmount (abstracted to Int), index an int. -/
structure PathRank where
  quality : Nat
  length : Nat
  liquidity : Int
  index : Nat
deriving DecidableEq, Repr

/-- Modelled from the spec: the PathRank ordering — higher quality first;
ties broken by lower length, then by delivered-liquidity descending, then
by original-index ascending. -/
def pathRankLe (a b : PathRank) : Bool :=
  if a.quality ≠ b.quality then decide (b.quality < a.quality)
  else if a.length ≠ b.length then decide (a.length < b.length)
  else if a.liquidity ≠ b.liquidity then decide (b.liquidity < a.liquidity)
  else decide (a.index ≤ b.index)

/-- The PathRank comparator as a Prop-valued relation (for sortedness). -/
def PathRankLE (a b : PathRank) : Prop := pathRankLe a b = true

instance : DecidableRel PathRankLE := fun a b => by
  unfold PathRankLE; infer_instance

/-- The comparator, characterized as a lexicographic disjunction. -/
theorem pathRankLe_iff (a b : PathRank) :
    pathRankLe a b = true ↔
      (b.quality < a.quality ∨
        (a.quality = b.quality ∧ (a.length < b.length ∨
          (a.length = b.length ∧ (b.liquidity < a.liquidity ∨
            (a.liquidity = b.liquidity ∧ a.index ≤ b.index)))))) := by
  unfold pathRankLe
  split_ifs with h1 h2 h3 <;> simp_all

theorem pathRankLe_total (a b : PathRank) :
    pathRankLe a b = true ∨ pathRankLe b a = true := by
  rw [pathRankLe_iff, pathRankLe_iff]
  omega

theorem pathRankLe_trans (a b c : PathRank)
    (hab : pathRankLe a b = true) (hbc : pathRankLe b c = true) :
    pathRankLe a c = true := by
  rw [pathRankLe_iff] at hab hbc ⊢
  omega

theorem pathRankLe_antisymm (a b : PathRank)
    (hab : pathRankLe a b = true) (hba : pathRankLe b a = true) :
    a = b := by
  rw [pathRankLe_iff] at hab hba
  cases a; cases b
  simp only [PathRank.mk.injEq]
  simp only at hab hba
  omega

instance : IsTotal PathRank PathRankLE :=
  ⟨fun a b => pathRankLe_total a b⟩

instance : IsTrans PathRank PathRankLE :=
  ⟨fun a b c => pathRankLe_trans a b c⟩

instance : IsAntisymm PathRank PathRankLE :=
  ⟨fun a b => pathRankLe_antisymm a b⟩

/-- The settlement oracle verdict on one candidate path, from the spec:
status ∈ \x7bsuccess, temporary, path_dry, no_liquidity, fatal\x7d, with a
delivered amount and a quality on success. -/
inductive OracleStatus where
  | success (delivered : Int) (quality : Nat)
  | temporary
  | pathDry
  | noLiquidity
  | fatal
deriving DecidableEq, Repr

/-- Modelled from the spec: the candidate loop of computePathRanks /
rankPaths (the bodies are not in the source slice).  Each candidate, taken
in insertion order with its original index, is measured by the oracle
(getPathLiquidity): success with delivered ≥ the keep-threshold yields a
PathRank; temporary, path-dry and no-liquidity errors drop that candidate
and continue; a fatal error aborts the whole ranking. -/
def processCandidates (oracle : STPath → OracleStatus) (minDst : Int) :
    List (Nat × STPath) → Except Unit (List PathRank)
  | [] => Except.ok []
  | (i, p) :: rest =>
    match oracle p with
    | OracleStatus.fatal => Except.error ()
    | OracleStatus.temporary => processCandidates oracle minDst rest
    | OracleStatus.pathDry => processCandidates oracle minDst rest
    | OracleStatus.noLiquidity => processCandidates oracle minDst rest
    | OracleStatus.success delivered quality =>
      if minDst ≤ delivered then
        match processCandidates oracle minDst rest with
        | Except.error e => Except.error e
        | Except.ok rs => Except.ok (⟨quality, p.length, delivered, i⟩ :: rs)
      else processCandidates oracle minDst rest

/-- The ranking environment: the settlement oracle, the requested
destination amount, the delivered amount of the trivial default path
(zero when that path is not viable), and the keep-threshold fraction
applied to the remaining amount.  Modelled from the spec: the oracle is a
capability passed in; the fraction is an unspecified small fraction. -/
structure RankerEnv where
  oracle : STPath → OracleStatus
  dstAmount : Int
  defaultPathDelivered : Int
  keepFraction : Int → Int

/-- Modelled from the spec: computePathRanks — subtract the default path's
delivered amount from the destination amount, derive the keep-threshold,
measure every candidate in insertion order, and sort the resulting ranks
by the PathRank comparator. -/
def computeRanks (env : RankerEnv) (paths : List STPath) :
    Except Unit (List PathRank) :=
  match processCandidates env.oracle
      (env.keepFraction (env.dstAmount - env.defaultPathDelivered))
      paths.enum with
  | Except.error e => Except.error e
  | Except.ok ranks => Except.ok (List.insertionSort PathRankLE ranks)

/-! ## The path expander -/

-- The addFlags bitfield constants, from the Pathfinder header.

/-- Add ripple paths (afADD_ACCOUNTS = 0x001 in the header). -/
def afADD_ACCOUNTS : Nat := 0x001

/-- Add order books (afADD_BOOKS = 0x002 in the header). -/
def afADD_BOOKS : Nat := 0x002

/-- Add order book to XRP only (afOB_XRP = 0x010 in the header). -/
def afOB_XRP : Nat := 0x010

/-- Must link to destination currency (afOB_LAST = 0x040 in the header). -/
def afOB_LAST : Nat := 0x040

/-- Destination account only (afAC_LAST = 0x080 in the header). -/
def afAC_LAST : Nat := 0x080

/-- Test one flag bit of an addFlags bitfield. -/
def hasFlag (flags af : Nat) : Bool := flags &&& af ≠ 0

/-- Modelled from the spec: the read-only ledger view consumed by the
expander — trust-line enumeration (peers of an account in a currency, in
enumeration order), the budgeted fan-out cap, the order-book directory, and
the per-endpoint no-ripple flag.  `noRippleFlag owner peer c` is the
no-ripple flag the account `owner` has set on its (outgoing) side of its
trust line with `peer` in currency `c`. -/
structure LedgerView where
  trustLines : Account → Currency → List Account
  pathsOutCap : Currency → Account → Nat
  books : Issue → List Issue
  noRippleFlag : Account → Account → Currency → Bool

/-- A cost-annotated path-type template; the static path table stores these
and a search level selects the ones whose cost it covers. -/
structure CostedPath where
  cost : Nat
  path : PathType
deriving DecidableEq, Repr

/-- The per-request pathfinder environment: ledger view, endpoints, source
and destination Issues, and the static template table. -/
structure PF where
  ledger : LedgerView
  srcAccount : Account
  dstAccount : Account
  srcIssue : Issue
  dstIssue : Issue
  table : PaymentType → List CostedPath

/-- The account and Issue a partial path currently ends at: the implicit
source anchor for the empty path; an account hop moves to that account and
keeps the Issue; a book hop moves to the output Issue and its issuer. -/
def pathEnd (pf : PF) (path : STPath) : Account × Issue :=
  path.foldl
    (fun st e =>
      match e with
      | STPathElement.account a => (a, st.2)
      | STPathElement.book y => (y.issuer, y))
    (pf.srcAccount, pf.srcIssue)

/-- Modelled from the spec (doc comment in the header at Pathfinder.h
lines 156-158): does this path end on an account-to-account link whose last
account has set the no-ripple flag on the link?  The last link runs from
the end of the path without its last element to that last element, in the
currency current at that point. -/
def isNoRippleOut (pf : PF) (path : STPath) : Bool :=
  match path.getLast? with
  | some (STPathElement.account b) =>
    let prior := pathEnd pf path.dropLast
    pf.ledger.noRippleFlag b prior.1 prior.2.currency
  | _ => false

/-- Modelled from the spec: has an account already been visited by the
path (the source anchor counts as visited)? -/
def visitedAccount (pf : PF) (path : STPath) (b : Account) : Bool :=
  b == pf.srcAccount ||
    path.any (fun e =>
      match e with
      | STPathElement.account a => a == b
      | STPathElement.book _ => false)

/-- Modelled from the spec: issueMatchesOrigin — an output Issue matches
the origin when its issuer equals the source account (a book hop to such
an Issue would loop trivially back to the origin). -/
def issueMatchesOrigin (pf : PF) (y : Issue) : Bool :=
  y.issuer == pf.srcAccount

/-- Modelled from the spec: addLink — push every permissible one-hop
extension of the current path.  Account hops (under afADD_ACCOUNTS) run
over the trust lines of the end account in the current currency, capped by
the budgeted fan-out; they are refused wholesale when the path ends on a
no-ripple outgoing link, and individually when the peer is already visited
or (under afAC_LAST) is not the destination.  Book hops (under afADD_BOOKS)
run over the order-book directory from the current Issue; afOB_XRP
restricts the output to the native currency, afOB_LAST to the destination
Issue, and an output Issue matching the origin is refused. -/
def addLink (pf : PF) (currentPath : STPath) (addFlags : Nat) :
    List STPath :=
  let stEnd := pathEnd pf currentPath
  let accountExts :=
    if hasFlag addFlags afADD_ACCOUNTS && ! isNoRippleOut pf currentPath then
      ((pf.ledger.trustLines stEnd.1 stEnd.2.currency).take
          (pf.ledger.pathsOutCap stEnd.2.currency stEnd.1)).filterMap
        (fun peer =>
          if (! hasFlag addFlags afAC_LAST || peer == pf.dstAccount)
              && ! visitedAccount pf currentPath peer then
            some (currentPath ++ [STPathElement.account peer])
          else none)
    else []
  let bookExts :=
    if hasFlag addFlags afADD_BOOKS then
      (pf.ledger.books stEnd.2).filterMap
        (fun y =>
          if (! hasFlag addFlags afOB_XRP || y.currency == nativeCurrency)
              && (! hasFlag addFlags afOB_LAST || y == pf.dstIssue)
              && ! issueMatchesOrigin pf y then
            some (currentPath ++ [STPathElement.book y])
          else none)
    else []
  accountExts ++ bookExts

/-! ## The path generator -/

/-- Modelled from the spec: the flag set for a template node — ACCOUNTS
adds afAC_LAST iff it is the last node; DEST_BOOK and XRP_BOOK refine book
expansion; DESTINATION is the terminal account hop. -/
def flagsForNode (isLast : Bool) : NodeType → Nat
  | NodeType.nt_SOURCE => 0
  | NodeType.nt_ACCOUNTS =>
    afADD_ACCOUNTS ||| (if isLast then afAC_LAST else 0)
  | NodeType.nt_BOOKS => afADD_BOOKS
  | NodeType.nt_XRP_BOOK => afADD_BOOKS ||| afOB_XRP
  | NodeType.nt_DEST_BOOK => afADD_BOOKS ||| afOB_LAST
  | NodeType.nt_DESTINATION => afADD_ACCOUNTS ||| afAC_LAST

/-- Modelled from the spec: expand a set of partial paths through the
remaining template nodes, replacing the set with the addLink extensions at
each node. -/
def expandTemplate (pf : PF) : List NodeType → List STPath → List STPath
  | [], cur => cur
  | n :: rest, cur =>
    expandTemplate pf rest
      (cur.flatMap (fun p => addLink pf p (flagsForNode rest.isEmpty n)))

/-- Modelled from the spec: all candidate paths of one template — seed with
the source element alone (the empty path anchored at the source) and expand
through the template nodes after the leading SOURCE node. -/
def genTemplate (pf : PF) (t : PathType) : List STPath :=
  expandTemplate pf (t.drop 1) [[]]

/-- Modelled from the spec: deduplicating append — add each generated path
to the accumulated complete paths unless it is already present. -/
def appendNew (acc gen : List STPath) : List STPath :=
  gen.foldl (fun a p => if p ∈ a then a else a ++ [p]) acc

/-- Modelled from the spec: classify the PaymentType of the request from
the source and destination currencies. -/
def paymentType (pf : PF) : PaymentType :=
  if pf.srcIssue.currency == nativeCurrency then
    if pf.dstIssue.currency == nativeCurrency then PaymentType.pt_XRP_to_XRP
    else PaymentType.pt_XRP_to_nonXRP
  else if pf.dstIssue.currency == nativeCurrency then
    PaymentType.pt_nonXRP_to_XRP
  else if pf.srcIssue.currency == pf.dstIssue.currency then
    PaymentType.pt_nonXRP_to_same
  else PaymentType.pt_nonXRP_to_nonXRP

/-- Modelled from the spec: the templates the static table associates with
the request's PaymentType at a search level — the cost-annotated entries
whose cost the level covers (so higher levels select more templates). -/
def templatesFor (pf : PF) (level : Nat) : List PathType :=
  ((pf.table (paymentType pf)).filter (fun cp => cp.cost ≤ level)).map
    CostedPath.path

/-- Modelled from the spec: findPaths as a transformer of the instance's
accumulated complete-path state — each selected template's candidates are
deduplicated against the state and appended. -/
def findPathsState (pf : PF) (level : Nat) (complete : List STPath) :
    List STPath :=
  (templatesFor pf level).foldl (fun acc t => appendNew acc (genTemplate pf t))
    complete

/-- Modelled from the spec: findPaths on a fresh instance (the complete
path set starts empty). -/
def findPaths (pf : PF) (level : Nat) : List STPath :=
  findPathsState pf level []

/-- Decidable form of the C1 invariant: at every position of the path that
holds an account hop, the prefix before it is not no-ripple-out (so no hop
ever extended a no-ripple-out partial path by an account-to-account hop). -/
def noPassThroughB (pf : PF) (path : STPath) : Bool :=
  (List.range path.length).all (fun k =>
    match path.getD k (STPathElement.book ⟨0, 0⟩) with
    | STPathElement.account _ => ! isNoRippleOut pf (path.take k)
    | STPathElement.book _ => true)

/-! ## getBestPaths -/

/-- Modelled from the spec: a ranked path's first hop conflicts with an
explicitly requested source issuer when that first hop is an account hop to
a different account than the requested issuer. -/
def issuerConflict (srcIssuer : Option Account) (path : STPath) : Bool :=
  match srcIssuer, path.head? with
  | some iss, some (STPathElement.account a) => a != iss
  | _, _ => false

/-- Modelled from the spec: the walk over the sorted ranks in getBestPaths.
Skip issuer-conflicting entries; take entries while slots remain and the
accumulated delivered total is still short of the destination amount; once
the walk stops, the remaining qualifying (non-conflicting) ranks form the
remainder.  Returns (taken ranks, accumulated total, remaining ranks). -/
def walkRanks (paths : List STPath) (srcIssuer : Option Account)
    (dst : Int) : List PathRank → Nat → Int →
    List PathRank × Int × List PathRank
  | [], _, tot => ([], tot, [])
  | r :: rest, slots, tot =>
    if issuerConflict srcIssuer (paths.getD r.index []) then
      walkRanks paths srcIssuer dst rest slots tot
    else if slots == 0 || dst ≤ tot then
      ([], tot,
        (r :: rest).filter
          (fun r2 => ! issuerConflict srcIssuer (paths.getD r2.index [])))
    else
      (r :: (walkRanks paths srcIssuer dst rest (slots - 1)
          (tot + r.liquidity)).1,
        (walkRanks paths srcIssuer dst rest (slots - 1)
          (tot + r.liquidity)).2.1,
        (walkRanks paths srcIssuer dst rest (slots - 1)
          (tot + r.liquidity)).2.2)

/-- The result of getBestPaths: the primary path set, the optional
full-liquidity path, and the extra paths. -/
structure BestPathsOut where
  primary : List STPath
  fullLiquidity : Option STPath
  extras : List STPath
deriving DecidableEq, Repr

/-- Modelled from the spec: getBestPaths — walk the sorted ranks taking up
to maxPaths entries until the delivered total covers the destination
amount; if still short, emit from the remaining ranks the first (highest
ranked) path whose delivered amount alone covers the deficit as the
full-liquidity path; the remaining qualifying ranks beyond the cut are the
extra paths. -/
def getBestPaths (paths : List STPath) (ranks : List PathRank)
    (maxPaths : Nat) (srcIssuer : Option Account) (dst : Int) :
    BestPathsOut :=
  { primary := (walkRanks paths srcIssuer dst ranks maxPaths 0).1.map
      (fun r => paths.getD r.index []),
    fullLiquidity :=
      if (walkRanks paths srcIssuer dst ranks maxPaths 0).2.1 < dst then
        ((walkRanks paths srcIssuer dst ranks maxPaths 0).2.2.find?
            (fun r => dst - (walkRanks paths srcIssuer dst ranks
              maxPaths 0).2.1 ≤ r.liquidity)).map
          (fun r => paths.getD r.index [])
      else none,
    extras := (walkRanks paths srcIssuer dst ranks maxPaths 0).2.2.map
      (fun r => paths.getD r.index []) }

end RippledPath

namespace RippledPeerSet

/-- The PeerSet state embedded from ripple_PeerSet.cpp: the peer map
(peer id → progress counter, in insertion order), the timeout counter, and
the completion / failure / progress flags. -/
structure State where
  mPeers : List (Nat × Nat)
  mTimeouts : Nat
  mComplete : Bool
  mFailed : Bool
  mProgress : Bool
deriving DecidableEq, Repr

/-- isDone, from the PeerSet header contract used by the source: the set is
done when it is complete or failed. -/
def isDone (s : State) : Bool := s.mComplete || s.mFailed

/-- PeerSet::peerHas, embedded from the source: insert (peerId, 0) into the
peer map; if the key was already present return without invoking newPeer,
otherwise invoke newPeer once.  The returned Bool records whether newPeer
was invoked. -/
def peerHas (s : State) (pid : Nat) : State × Bool :=
  if (s.mPeers.map Prod.fst).contains pid then (s, false)
  else ({ s with mPeers := s.mPeers ++ [(pid, 0)] }, true)

/-- The externally visible effects of one invokeOnTimer call: the arguments
of the onTimer calls made, and whether setTimer re-armed the timer. -/
structure TimerEffects where
  onTimerCalls : List Bool
  setTimerCalled : Bool
deriving DecidableEq, Repr

/-- PeerSet::invokeOnTimer, embedded from the source: return immediately
when done; otherwise increment the timeout counter and call
onTimer(false) when no progress occurred, or clear the progress flag and
call onTimer(true); finally re-arm the timer unless the (possibly updated)
state is done.  The virtual onTimer hook is a parameter that may transform
the state. -/
def invokeOnTimer (onTimer : Bool → State → State) (s : State) :
    State × TimerEffects :=
  if isDone s then (s, ⟨[], false⟩)
  else
    let arg := s.mProgress
    let s1 :=
      if ! s.mProgress then { s with mTimeouts := s.mTimeouts + 1 }
      else { s with mProgress := false }
    let s2 := onTimer arg s1
    (s2, ⟨[arg], ! isDone s2⟩)

/-- C9: PeerSet::peerHas is idempotent at the public interface — when the
peer id is already a key of the peer map the call leaves the state
unchanged and does not invoke newPeer; when it is absent the call inserts
it with counter 0 and invokes newPeer exactly once; and a repeated call
with the same peer is a no-op that never invokes newPeer again. -/
theorem peerHas_idempotent (s : State) (pid : Nat) :
    ((s.mPeers.map Prod.fst).contains pid = true → peerHas s pid = (s, false)) ∧
    ((s.mPeers.map Prod.fst).contains pid = false →
      peerHas s pid = ({ s with mPeers := s.mPeers ++ [(pid, 0)] }, true)) ∧
    peerHas (peerHas s pid).1 pid = ((peerHas s pid).1, false) := by
  refine ⟨fun h => by unfold peerHas; rw [if_pos h],
    fun h => by unfold peerHas; rw [if_neg (by simp only [h]; decide)], ?_⟩
  by_cases h : (s.mPeers.map Prod.fst).contains pid = true
  · have h1 : peerHas s pid = (s, false) := by unfold peerHas; rw [if_pos h]
    rw [h1]
    exact h1
  · have hb : (s.mPeers.map Prod.fst).contains pid = false := by simpa using h
    have h1 : peerHas s pid =
        ({ s with mPeers := s.mPeers ++ [(pid, 0)] }, true) := by
      unfold peerHas; rw [if_neg (by simp only [hb]; decide)]
    rw [h1]
    unfold peerHas
    rw [if_pos (by simp [List.elem_iff])]

/-- Witness for C9: both branches of peerHas_idempotent exercised on
concrete states. -/
theorem peerHas_idempotent_witness :
    peerHas ⟨[(5, 0)], 0, false, false, true⟩ 5 =
      (⟨[(5, 0)], 0, false, false, true⟩, false) ∧
    peerHas ⟨[], 0, false, false, true⟩ 5 =
      (⟨[(5, 0)], 0, false, false, true⟩, true) :=
  ⟨(peerHas_idempotent ⟨[(5, 0)], 0, false, false, true⟩ 5).1 (by decide),
   (peerHas_idempotent ⟨[], 0, false, false, true⟩ 5).2.1 (by decide)⟩

/-- C10: once a PeerSet is done, invokeOnTimer changes nothing — no
timeout-counter increment, no onTimer call, no timer re-arm; when not
done, the counter is incremented exactly when no progress occurred, the
progress flag is cleared exactly when progress occurred, and onTimer is
invoked once with the progress verdict before the timer is conditionally
re-armed. -/
theorem invokeOnTimer_spec (f : Bool → State → State) (s : State) :
    (isDone s = true → invokeOnTimer f s = (s, ⟨[], false⟩)) ∧
    (isDone s = false → s.mProgress = false →
      invokeOnTimer f s =
        (f false { s with mTimeouts := s.mTimeouts + 1 },
          ⟨[false], ! isDone (f false { s with mTimeouts := s.mTimeouts + 1 })⟩)) ∧
    (isDone s = false → s.mProgress = true →
      invokeOnTimer f s =
        (f true { s with mProgress := false },
          ⟨[true], ! isDone (f true { s with mProgress := false })⟩)) := by
  refine ⟨fun h => by simp [invokeOnTimer, h],
    fun h hp => by simp [invokeOnTimer, h, hp],
    fun h hp => by simp [invokeOnTimer, h, hp]⟩

/-- Witness for C10: the done and both not-done branches exercised on
concrete states with the identity onTimer hook. -/
theorem invokeOnTimer_spec_witness :
    invokeOnTimer (fun _ st => st) ⟨[], 3, true, false, true⟩ =
      (⟨[], 3, true, false, true⟩, ⟨[], false⟩) ∧
    invokeOnTimer (fun _ st => st) ⟨[], 3, false, false, false⟩ =
      (⟨[], 4, false, false, false⟩, ⟨[false], true⟩) ∧
    invokeOnTimer (fun _ st => st) ⟨[], 3, false, false, true⟩ =
      (⟨[], 3, false, false, false⟩, ⟨[true], true⟩) :=
  ⟨(invokeOnTimer_spec (fun _ st => st) ⟨[], 3, true, false, true⟩).1 rfl,
   (invokeOnTimer_spec (fun _ st => st) ⟨[], 3, false, false, false⟩).2.1 rfl rfl,
   (invokeOnTimer_spec (fun _ st => st) ⟨[], 3, false, false, true⟩).2.2 rfl rfl⟩

end RippledPeerSet

namespace RippledPath

/-- C5: a temporary oracle verdict on one candidate drops exactly that
candidate — the ranking over the list with the candidate removed is
unchanged (previously accumulated ranks are unaffected, ranking continues
over the rest, and no error is surfaced for it). -/
theorem processCandidates_drops_temporary (oracle : STPath → OracleStatus)
    (minDst : Int) (l r : List (Nat × STPath)) (i : Nat) (c : STPath)
    (h : oracle c = OracleStatus.temporary) :
    processCandidates oracle minDst (l ++ (i, c) :: r) =
      processCandidates oracle minDst (l ++ r) := by
  induction l with
  | nil => simp [processCandidates, h]
  | cons hd tl ih =>
    obtain ⟨j, p⟩ := hd
    simp only [List.cons_append, processCandidates]
    cases horacle : oracle p <;> simp [ih]

/-- Witness for C5: a concrete candidate list where the middle candidate
gets a temporary verdict and is dropped without disturbing the rest. -/
theorem processCandidates_drops_temporary_witness :
    processCandidates
      (fun p => if p.length = 0 then OracleStatus.temporary
        else OracleStatus.success 9 4) 1
      [(0, [STPathElement.account 7]), (1, []),
        (2, [STPathElement.account 8])] =
      processCandidates
        (fun p => if p.length = 0 then OracleStatus.temporary
          else OracleStatus.success 9 4) 1
        [(0, [STPathElement.account 7]), (2, [STPathElement.account 8])] :=
  processCandidates_drops_temporary
    (fun p => if p.length = 0 then OracleStatus.temporary
      else OracleStatus.success 9 4) 1
    [(0, [STPathElement.account 7])] [(2, [STPathElement.account 8])] 1 []
    (by decide)

/-- C4: the five addFlags constants of the header are pairwise disjoint
single bits, and addLink interprets no other bit — its output depends only
on the five flag tests. -/
theorem addFlags_disjoint_single_bits :
    (afADD_ACCOUNTS = 2 ^ 0 ∧ afADD_BOOKS = 2 ^ 1 ∧ afOB_XRP = 2 ^ 4 ∧
      afOB_LAST = 2 ^ 6 ∧ afAC_LAST = 2 ^ 7) ∧
    (afADD_ACCOUNTS &&& afADD_BOOKS = 0 ∧ afADD_ACCOUNTS &&& afOB_XRP = 0 ∧
      afADD_ACCOUNTS &&& afOB_LAST = 0 ∧ afADD_ACCOUNTS &&& afAC_LAST = 0 ∧
      afADD_BOOKS &&& afOB_XRP = 0 ∧ afADD_BOOKS &&& afOB_LAST = 0 ∧
      afADD_BOOKS &&& afAC_LAST = 0 ∧ afOB_XRP &&& afOB_LAST = 0 ∧
      afOB_XRP &&& afAC_LAST = 0 ∧ afOB_LAST &&& afAC_LAST = 0) ∧
    (∀ (pf : PF) (path : STPath) (f g : Nat),
      hasFlag f afADD_ACCOUNTS = hasFlag g afADD_ACCOUNTS →
      hasFlag f afADD_BOOKS = hasFlag g afADD_BOOKS →
      hasFlag f afOB_XRP = hasFlag g afOB_XRP →
      hasFlag f afOB_LAST = hasFlag g afOB_LAST →
      hasFlag f afAC_LAST = hasFlag g afAC_LAST →
      addLink pf path f = addLink pf path g) := by
  refine ⟨by decide, by decide, ?_⟩
  intro pf path f g h1 h2 h3 h4 h5
  simp only [addLink, h1, h2, h3, h4, h5]

/-- Witness for C4: two concrete bitfields differing only in an undefined
bit (0x100) produce identical addLink output on a concrete request. -/
theorem addFlags_disjoint_single_bits_witness :
    addLink
      ⟨⟨fun _ _ => [2], fun _ _ => 4, fun _ => [⟨3, 4⟩], fun _ _ _ => false⟩,
        0, 1, ⟨5, 0⟩, ⟨3, 4⟩, fun _ => []⟩ [] 0x013 =
      addLink
        ⟨⟨fun _ _ => [2], fun _ _ => 4, fun _ => [⟨3, 4⟩], fun _ _ _ => false⟩,
          0, 1, ⟨5, 0⟩, ⟨3, 4⟩, fun _ => []⟩ [] 0x113 :=
  addFlags_disjoint_single_bits.2.2
    ⟨⟨fun _ _ => [2], fun _ _ => 4, fun _ => [⟨3, 4⟩], fun _ _ _ => false⟩,
      0, 1, ⟨5, 0⟩, ⟨3, 4⟩, fun _ => []⟩ [] 0x013 0x113
    (by decide) (by decide) (by decide) (by decide) (by decide)

/-- C2: the PathRank comparator orders by quality descending, then length
ascending, then liquidity descending, then original index ascending; it is
a total order (total, transitive, antisymmetric); and the ranks produced by
computeRanks are sorted under exactly this comparator. -/
theorem pathRank_total_order_and_sorted :
    (∀ a b : PathRank, b.quality < a.quality → pathRankLe a b = true) ∧
    (∀ a b : PathRank, a.quality = b.quality → a.length < b.length →
      pathRankLe a b = true) ∧
    (∀ a b : PathRank, a.quality = b.quality → a.length = b.length →
      b.liquidity < a.liquidity → pathRankLe a b = true) ∧
    (∀ a b : PathRank, a.quality = b.quality → a.length = b.length →
      a.liquidity = b.liquidity → a.index ≤ b.index →
      pathRankLe a b = true) ∧
    (∀ a b : PathRank, pathRankLe a b = true ∨ pathRankLe b a = true) ∧
    (∀ a b c : PathRank, pathRankLe a b = true → pathRankLe b c = true →
      pathRankLe a c = true) ∧
    (∀ a b : PathRank, pathRankLe a b = true → pathRankLe b a = true →
      a = b) ∧
    (∀ (env : RankerEnv) (paths : List STPath) (ranks : List PathRank),
      computeRanks env paths = Except.ok ranks →
      ranks.Sorted PathRankLE) := by
  refine ⟨?_, ?_, ?_, ?_, pathRankLe_total, pathRankLe_trans,
    pathRankLe_antisymm, ?_⟩
  · intro a b h
    rw [pathRankLe_iff]
    omega
  · intro a b hq h
    rw [pathRankLe_iff]
    omega
  · intro a b hq hl h
    rw [pathRankLe_iff]
    omega
  · intro a b hq hl hx h
    rw [pathRankLe_iff]
    omega
  · intro env paths ranks h
    unfold computeRanks at h
    split at h
    · cases h
    · cases h
      exact List.sorted_insertionSort PathRankLE _

/-- Witness for C2: the ordering clauses and sortedness exercised at
concrete ranks and on a concrete ranking run. -/
theorem pathRank_total_order_and_sorted_witness :
    pathRankLe ⟨3, 9, 0, 9⟩ ⟨2, 1, 5, 1⟩ = true ∧
    pathRankLe ⟨3, 1, 0, 9⟩ ⟨3, 2, 5, 1⟩ = true ∧
    List.Sorted PathRankLE [⟨1, 0, 7, 0⟩, ⟨1, 1, 7, 1⟩] :=
  ⟨pathRank_total_order_and_sorted.1 ⟨3, 9, 0, 9⟩ ⟨2, 1, 5, 1⟩ (by decide),
   pathRank_total_order_and_sorted.2.1 ⟨3, 1, 0, 9⟩ ⟨3, 2, 5, 1⟩ rfl
     (by decide),
   pathRank_total_order_and_sorted.2.2.2.2.2.2.2
     ⟨fun _ => OracleStatus.success 7 1, 10, 0, fun _ => 0⟩
     [[], [STPathElement.account 1]] [⟨1, 0, 7, 0⟩, ⟨1, 1, 7, 1⟩] rfl⟩

/-- Every member of an addLink output extends the current path by exactly
one element and satisfies the admissibility conditions of its kind. -/
theorem mem_addLink (pf : PF) (path : STPath) (flags : Nat) (ext : STPath)
    (h : ext ∈ addLink pf path flags) :
    (∃ peer, ext = path ++ [STPathElement.account peer] ∧
      isNoRippleOut pf path = false ∧
      (hasFlag flags afAC_LAST = true → peer = pf.dstAccount) ∧
      visitedAccount pf path peer = false) ∨
    (∃ y, ext = path ++ [STPathElement.book y] ∧
      (hasFlag flags afOB_XRP = true → y.currency = nativeCurrency) ∧
      (hasFlag flags afOB_LAST = true → y = pf.dstIssue) ∧
      issueMatchesOrigin pf y = false) := by
  unfold addLink at h
  simp only [] at h
  rcases List.mem_append.mp h with h1 | h2
  · left
    split at h1
    case isTrue hcond =>
      rcases List.mem_filterMap.mp h1 with ⟨peer, hmem, hf⟩
      split at hf
      case isTrue hg =>
        refine ⟨peer, ?_, ?_, ?_, ?_⟩
        · exact (Option.some.injEq _ _ ▸ hf).symm
        · have := (Bool.and_eq_true _ _).mp hcond
          simpa using this.2
        · intro hlast
          have hg2 := (Bool.and_eq_true _ _).mp hg
          have := hg2.1
          rw [hlast] at this
          simpa using this
        · have hg2 := (Bool.and_eq_true _ _).mp hg
          simpa using hg2.2
      case isFalse => cases hf
    case isFalse => cases h1
  · right
    split at h2
    case isTrue hcond =>
      rcases List.mem_filterMap.mp h2 with ⟨y, hmem, hf⟩
      split at hf
      case isTrue hg =>
        simp only [Bool.and_eq_true] at hg
        obtain ⟨⟨hA, hB⟩, hC⟩ := hg
        refine ⟨y, ?_, ?_, ?_, ?_⟩
        · exact (Option.some.injEq _ _ ▸ hf).symm
        · intro hx
          rw [hx] at hA
          simpa using hA
        · intro hx
          rw [hx] at hB
          simpa using hB
        · simpa using hC
      case isFalse => cases hf
    case isFalse => cases h2

/-- Appending one admissible element preserves the no-pass-through
invariant (the new position is an account hop only when the current path
is not no-ripple-out). -/
theorem noPassThroughB_append (pf : PF) (path : STPath) (e : STPathElement)
    (hp : noPassThroughB pf path = true)
    (he : (∃ a, e = STPathElement.account a) →
      isNoRippleOut pf path = false) :
    noPassThroughB pf (path ++ [e]) = true := by
  unfold noPassThroughB at hp ⊢
  rw [List.length_append, List.length_singleton, List.range_succ,
    List.all_append]
  refine (Bool.and_eq_true _ _).mpr ⟨?_, ?_⟩
  · rw [List.all_eq_true] at hp ⊢
    intro k hk
    have hklt : k < path.length := List.mem_range.mp hk
    have h1 : (path ++ [e]).getD k (STPathElement.book ⟨0, 0⟩) =
        path.getD k (STPathElement.book ⟨0, 0⟩) :=
      List.getD_append path [e] _ k hklt
    have h2 : (path ++ [e]).take k = path.take k :=
      List.take_append_of_le_length (Nat.le_of_lt hklt)
    rw [h1, h2]
    exact hp k hk
  · simp only [List.all_cons, List.all_nil, Bool.and_true]
    have h1 : (path ++ [e]).getD path.length (STPathElement.book ⟨0, 0⟩) =
        e := by
      rw [List.getD_append_right path [e] _ path.length (Nat.le_refl _)]
      simp
    have h2 : (path ++ [e]).take path.length = path := List.take_left path [e]
    rw [h1, h2]
    cases e with
    | account a =>
      have := he ⟨a, rfl⟩
      simp [this]
    | book y => simp

/-- addLink preserves the no-pass-through invariant. -/
theorem noPassThroughB_addLink (pf : PF) (path : STPath) (flags : Nat)
    (ext : STPath) (hp : noPassThroughB pf path = true)
    (h : ext ∈ addLink pf path flags) :
    noPassThroughB pf ext = true := by
  rcases mem_addLink pf path flags ext h with
    ⟨peer, he, hnr, _, _⟩ | ⟨y, he, _, _, _⟩
  · subst he
    exact noPassThroughB_append pf path _ hp (fun _ => hnr)
  · subst he
    refine noPassThroughB_append pf path _ hp ?_
    rintro ⟨a, ha⟩
    cases ha

/-- Template expansion preserves the no-pass-through invariant. -/
theorem expandTemplate_noPassThrough (pf : PF) (nodes : List NodeType)
    (cur : List STPath)
    (hc : ∀ p ∈ cur, noPassThroughB pf p = true) :
    ∀ p ∈ expandTemplate pf nodes cur, noPassThroughB pf p = true := by
  induction nodes generalizing cur with
  | nil => simpa [expandTemplate] using hc
  | cons n rest ih =>
    intro p hmem
    refine ih _ ?_ p hmem
    intro q hq
    rcases List.mem_flatMap.mp hq with ⟨p0, hp0, hq0⟩
    exact noPassThroughB_addLink pf p0 _ q (hc p0 hp0) hq0

/-- Every candidate generated for one template satisfies the
no-pass-through invariant. -/
theorem genTemplate_noPassThrough (pf : PF) (t : PathType) :
    ∀ p ∈ genTemplate pf t, noPassThroughB pf p = true := by
  refine expandTemplate_noPassThrough pf _ [[]] ?_
  intro p hp
  rw [List.mem_singleton.mp hp]
  rfl

/-- Membership in a deduplicating append. -/
theorem mem_appendNew (acc g : List STPath) (p : STPath) :
    p ∈ appendNew acc g ↔ p ∈ acc ∨ p ∈ g := by
  induction g generalizing acc with
  | nil => simp [appendNew]
  | cons x g ih =>
    have hstep : appendNew acc (x :: g) =
        appendNew (if x ∈ acc then acc else acc ++ [x]) g := rfl
    rw [hstep, ih]
    by_cases hx : x ∈ acc
    · rw [if_pos hx]
      simp only [List.mem_cons]
      constructor
      · tauto
      · intro h
        rcases h with h | h | h
        · exact Or.inl h
        · exact Or.inl (h ▸ hx)
        · exact Or.inr h
    · rw [if_neg hx]
      simp only [List.mem_append, List.mem_singleton, List.mem_cons]
      tauto

/-- Membership in the template fold of findPaths: a path is in the result
iff it was already in the accumulated state or some selected template
generates it. -/
theorem mem_foldl_appendNew (pf : PF) (ts : List PathType)
    (c : List STPath) (p : STPath) :
    p ∈ ts.foldl (fun acc t => appendNew acc (genTemplate pf t)) c ↔
      p ∈ c ∨ ∃ t, t ∈ ts ∧ p ∈ genTemplate pf t := by
  induction ts generalizing c with
  | nil => simp
  | cons t ts ih =>
    simp only [List.foldl_cons]
    rw [ih, mem_appendNew]
    constructor
    · intro h
      rcases h with (h | h) | ⟨t2, ht2, hgen⟩
      · exact Or.inl h
      · exact Or.inr ⟨t, List.mem_cons_self t ts, h⟩
      · exact Or.inr ⟨t2, List.mem_cons_of_mem t ht2, hgen⟩
    · intro h
      rcases h with h | ⟨t2, ht2, hgen⟩
      · exact Or.inl (Or.inl h)
      · rcases List.mem_cons.mp ht2 with h2 | h2
        · exact Or.inl (Or.inr (h2 ▸ hgen))
        · exact Or.inr ⟨t2, h2, hgen⟩

/-- A deduplicating append of already-present paths is the identity. -/
theorem appendNew_eq_self (acc g : List STPath)
    (h : ∀ p ∈ g, p ∈ acc) : appendNew acc g = acc := by
  induction g generalizing acc with
  | nil => rfl
  | cons x g ih =>
    have hx : x ∈ acc := h x (List.mem_cons_self x g)
    have hstep : appendNew acc (x :: g) =
        appendNew (if x ∈ acc then acc else acc ++ [x]) g := rfl
    rw [hstep, if_pos hx]
    exact ih acc (fun p hp => h p (List.mem_cons_of_mem _ hp))

/-- The template fold is a no-op on a state already containing every
generated path. -/
theorem foldl_appendNew_fixed (pf : PF) (ts : List PathType)
    (R : List STPath)
    (h : ∀ t ∈ ts, ∀ p ∈ genTemplate pf t, p ∈ R) :
    ts.foldl (fun acc t => appendNew acc (genTemplate pf t)) R = R := by
  induction ts with
  | nil => rfl
  | cons t ts ih =>
    simp only [List.foldl_cons]
    rw [appendNew_eq_self _ _ (h t (List.mem_cons_self t ts))]
    exact ih (fun t2 ht2 => h t2 (List.mem_cons_of_mem t ht2))

/-- C6: findPaths is idempotent on one instance — running the findPaths
state transformer a second time at the same level leaves the accumulated
complete-path set identical to the result of the first run. -/
theorem findPaths_idempotent (pf : PF) (level : Nat) :
    findPathsState pf level (findPaths pf level) = findPaths pf level := by
  unfold findPaths findPathsState
  apply foldl_appendNew_fixed
  intro t ht p hp
  exact (mem_foldl_appendNew pf _ [] p).mpr (Or.inr ⟨t, ht, hp⟩)

/-- C7: path discovery is monotone in the search level — the level-0
template selection is contained in every level's selection, and for
L1 ≤ L2 every path found at L1 is found at L2. -/
theorem findPaths_monotone (pf : PF) :
    (∀ (L : Nat) (t : PathType), t ∈ templatesFor pf 0 →
      t ∈ templatesFor pf L) ∧
    (∀ (L1 L2 : Nat), L1 ≤ L2 →
      ∀ p ∈ findPaths pf L1, p ∈ findPaths pf L2) := by
  have hmono : ∀ (L1 L2 : Nat), L1 ≤ L2 →
      ∀ t ∈ templatesFor pf L1, t ∈ templatesFor pf L2 := by
    intro L1 L2 hle t ht
    unfold templatesFor at ht ⊢
    rcases List.mem_map.mp ht with ⟨cp, hcp, hcp2⟩
    refine List.mem_map.mpr ⟨cp, ?_, hcp2⟩
    rcases List.mem_filter.mp hcp with ⟨hmem, hcost⟩
    refine List.mem_filter.mpr ⟨hmem, ?_⟩
    simp only [decide_eq_true_eq] at hcost ⊢
    omega
  refine ⟨fun L t ht => hmono 0 L (Nat.zero_le L) t ht, ?_⟩
  intro L1 L2 hle p hp
  unfold findPaths findPathsState at hp ⊢
  rcases (mem_foldl_appendNew pf _ [] p).mp hp with h | ⟨t, ht, hgen⟩
  · cases h
  · exact (mem_foldl_appendNew pf _ [] p).mpr
      (Or.inr ⟨t, hmono L1 L2 hle t ht, hgen⟩)

/-- C1: a partial path whose last account-to-account link is no-ripple on
the outgoing side of its final account is never extended by another
account-to-account hop (every addLink extension of such a path is a book
hop), and consequently every path produced by findPaths satisfies the
no-pass-through invariant at every position. -/
theorem no_ripple_pass_through (pf : PF) :
    (∀ (path : STPath) (flags : Nat) (ext : STPath),
      isNoRippleOut pf path = true → ext ∈ addLink pf path flags →
      ∃ y, ext = path ++ [STPathElement.book y]) ∧
    (∀ (level : Nat) (p : STPath), p ∈ findPaths pf level →
      noPassThroughB pf p = true) := by
  constructor
  · intro path flags ext hnr hmem
    rcases mem_addLink pf path flags ext hmem with
      ⟨peer, he, hnr2, _, _⟩ | ⟨y, he, _, _, _⟩
    · rw [hnr] at hnr2
      cases hnr2
    · exact ⟨y, he⟩
  · intro level p hp
    unfold findPaths findPathsState at hp
    rcases (mem_foldl_appendNew pf _ [] p).mp hp with h | ⟨t, ht, hgen⟩
    · cases h
    · exact genTemplate_noPassThrough pf t p hgen

/-- C8: issueMatchesOrigin holds exactly when the output Issue's issuer is
the source account, and every book hop emitted by addLink has an output
Issue that does not match the origin (its issuer is not the source
account). -/
theorem book_hop_origin_check (pf : PF) :
    (∀ y : Issue, issueMatchesOrigin pf y = true ↔
      y.issuer = pf.srcAccount) ∧
    (∀ (path : STPath) (flags : Nat) (ext : STPath),
      ext ∈ addLink pf path flags →
      ∀ y, ext = path ++ [STPathElement.book y] →
        issueMatchesOrigin pf y = false ∧ y.issuer ≠ pf.srcAccount) := by
  constructor
  · intro y
    simp [issueMatchesOrigin]
  · intro path flags ext hmem y hy
    rcases mem_addLink pf path flags ext hmem with
      ⟨peer, he, _, _, _⟩ | ⟨y2, he, _, _, horigin⟩
    · rw [hy] at he
      have h2 := List.append_cancel_left he
      cases h2
    · rw [hy] at he
      have h2 := List.append_cancel_left he
      have h3 : STPathElement.book y = STPathElement.book y2 :=
        (List.cons.injEq _ _ _ _ ▸ h2).1
      have h4 : y = y2 := by
        cases h3
        rfl
      subst h4
      refine ⟨horigin, ?_⟩
      intro hcontra
      unfold issueMatchesOrigin at horigin
      rw [hcontra] at horigin
      simp at horigin

/-- A small concrete pathfinder environment used by witnesses: two trust
peers everywhere, one order book to Issue (2, 7), every no-ripple flag
set, source 0, destination 3, and a two-template table whose second entry
costs 1. -/
def pfTest : PF :=
  ⟨⟨fun _ _ => [2, 3], fun _ _ => 10, fun _ => [⟨2, 7⟩], fun _ _ _ => true⟩,
    0, 3, ⟨1, 5⟩, ⟨1, 5⟩,
    fun _ => [⟨0, [NodeType.nt_SOURCE, NodeType.nt_ACCOUNTS]⟩,
      ⟨1, [NodeType.nt_SOURCE, NodeType.nt_ACCOUNTS,
        NodeType.nt_ACCOUNTS]⟩]⟩

/-- Witness for C1: a no-ripple-out concrete path only receives a book
extension, and the concrete found path satisfies the invariant. -/
theorem no_ripple_pass_through_witness :
    (isNoRippleOut pfTest [STPathElement.account 2] = true ∧
      ∃ y, [STPathElement.account 2, STPathElement.book ⟨2, 7⟩] =
        [STPathElement.account 2] ++ [STPathElement.book y]) ∧
    ([STPathElement.account 3] ∈ findPaths pfTest 0 ∧
      noPassThroughB pfTest [STPathElement.account 3] = true) :=
  ⟨⟨by decide,
    (no_ripple_pass_through pfTest).1 [STPathElement.account 2] afADD_BOOKS
      [STPathElement.account 2, STPathElement.book ⟨2, 7⟩] (by decide)
      (by decide)⟩,
   ⟨by decide,
    (no_ripple_pass_through pfTest).2 0 [STPathElement.account 3]
      (by decide)⟩⟩

/-- Witness for C7: level-0 templates survive at level 2, and the path
found at level 0 is still found at level 1. -/
theorem findPaths_monotone_witness :
    [NodeType.nt_SOURCE, NodeType.nt_ACCOUNTS] ∈ templatesFor pfTest 2 ∧
    [STPathElement.account 3] ∈ findPaths pfTest 1 :=
  ⟨(findPaths_monotone pfTest).1 2 [NodeType.nt_SOURCE, NodeType.nt_ACCOUNTS]
     (by decide),
   (findPaths_monotone pfTest).2 0 1 (by decide) [STPathElement.account 3]
     (by decide)⟩

/-- Witness for C8: the origin test evaluated at a concrete Issue, and a
concrete emitted book hop whose output issuer differs from the source. -/
theorem book_hop_origin_check_witness :
    (issueMatchesOrigin pfTest ⟨2, 0⟩ = true ↔
      (Issue.mk 2 0).issuer = pfTest.srcAccount) ∧
    (issueMatchesOrigin pfTest ⟨2, 7⟩ = false ∧
      (Issue.mk 2 7).issuer ≠ pfTest.srcAccount) :=
  ⟨(book_hop_origin_check pfTest).1 ⟨2, 0⟩,
   (book_hop_origin_check pfTest).2 [STPathElement.account 2] afADD_BOOKS
     [STPathElement.account 2, STPathElement.book ⟨2, 7⟩] (by decide)
     ⟨2, 7⟩ rfl⟩

/-- The walk over the sorted ranks splits its input: the taken entries come
from an initial part, the remaining entries from the final part, and the
accumulated total is the starting total plus the taken liquidity. -/
theorem walkRanks_split (paths : List STPath) (si : Option Account)
    (dst : Int) (l : List PathRank) :
    ∀ (slots : Nat) (tot : Int),
      ∃ l1 l2, l = l1 ++ l2 ∧
        (∀ r ∈ (walkRanks paths si dst l slots tot).1, r ∈ l1) ∧
        (∀ r ∈ (walkRanks paths si dst l slots tot).2.2, r ∈ l2) ∧
        (walkRanks paths si dst l slots tot).2.1 =
          tot + ((walkRanks paths si dst l slots tot).1.map
            PathRank.liquidity).sum := by
  induction l with
  | nil =>
    intro slots tot
    refine ⟨[], [], rfl, ?_, ?_, ?_⟩ <;> simp [walkRanks]
  | cons r rest ih =>
    intro slots tot
    by_cases hconf : issuerConflict si (paths.getD r.index []) = true
    · obtain ⟨l1, l2, heq, h1, h2, h3⟩ := ih slots tot
      have hw : walkRanks paths si dst (r :: rest) slots tot =
          walkRanks paths si dst rest slots tot := by
        simp only [walkRanks]
        rw [if_pos hconf]
      rw [hw]
      exact ⟨r :: l1, l2, by rw [heq]; rfl,
        fun q hq => List.mem_cons_of_mem r (h1 q hq), h2, h3⟩
    · by_cases hstop : (slots == 0 || decide (dst ≤ tot)) = true
      · have hw : walkRanks paths si dst (r :: rest) slots tot =
            ([], tot, (r :: rest).filter
              (fun r2 => ! issuerConflict si (paths.getD r2.index []))) := by
          simp only [walkRanks]
          rw [if_neg hconf, if_pos hstop]
        rw [hw]
        refine ⟨[], r :: rest, rfl, by simp, ?_, by simp⟩
        intro q hq
        simp only [] at hq
        exact List.mem_of_mem_filter hq
      · obtain ⟨l1, l2, heq, h1, h2, h3⟩ := ih (slots - 1) (tot + r.liquidity)
        have hw : walkRanks paths si dst (r :: rest) slots tot =
            (r :: (walkRanks paths si dst rest (slots - 1)
                (tot + r.liquidity)).1,
              (walkRanks paths si dst rest (slots - 1)
                (tot + r.liquidity)).2.1,
              (walkRanks paths si dst rest (slots - 1)
                (tot + r.liquidity)).2.2) := by
          simp only [walkRanks]
          rw [if_neg hconf, if_neg hstop]
        rw [hw]
        refine ⟨r :: l1, l2, by rw [heq]; rfl, ?_, h2, ?_⟩
        · intro q hq
          rcases List.mem_cons.mp hq with h | h
          · exact h ▸ List.mem_cons_self r l1
          · exact List.mem_cons_of_mem r (h1 q h)
        · simp only [List.map_cons, List.sum_cons]
          omega

/-- C3: when getBestPaths populates the full-liquidity slot, the path it
contains is not among the primary path set (given distinct complete paths,
distinct rank indexes and in-bounds indexes), and it is a single ranked
path whose delivered amount together with the primary total covers the
destination amount (it alone satisfies the remaining deficit). -/
theorem getBestPaths_fullLiquidity_disjoint (paths : List STPath)
    (ranks : List PathRank) (maxPaths : Nat) (srcIssuer : Option Account)
    (dst : Int) (hp : paths.Nodup)
    (hi : (ranks.map PathRank.index).Nodup)
    (hb : ∀ r ∈ ranks, r.index < paths.length) (p : STPath)
    (hfull : (getBestPaths paths ranks maxPaths srcIssuer dst).fullLiquidity
      = some p) :
    p ∉ (getBestPaths paths ranks maxPaths srcIssuer dst).primary ∧
    ∃ r, r ∈ ranks ∧ p = paths.getD r.index [] ∧
      dst ≤ ((walkRanks paths srcIssuer dst ranks maxPaths 0).1.map
        PathRank.liquidity).sum + r.liquidity := by
  obtain ⟨l1, l2, heq, h1, h2, h3⟩ :=
    walkRanks_split paths srcIssuer dst ranks maxPaths 0
  unfold getBestPaths at hfull ⊢
  simp only [] at hfull ⊢
  split at hfull
  case isFalse => cases hfull
  case isTrue hlt =>
    rcases Option.map_eq_some'.mp hfull with ⟨rF, hfind, hpF⟩
    have hmemF : rF ∈ (walkRanks paths srcIssuer dst ranks maxPaths 0).2.2 :=
      List.mem_of_find?_eq_some hfind
    have hpred := List.find?_some hfind
    simp only [decide_eq_true_eq] at hpred
    have hrF2 : rF ∈ l2 := h2 rF hmemF
    have hrFranks : rF ∈ ranks := heq ▸ List.mem_append_right l1 hrF2
    constructor
    · intro hmemP
      rcases List.mem_map.mp hmemP with ⟨rT, hrT, hpT⟩
      have hrT1 : rT ∈ l1 := h1 rT hrT
      have hrTranks : rT ∈ ranks := heq ▸ List.mem_append_left l2 hrT1
      have hdisj : (l1.map PathRank.index).Disjoint
          (l2.map PathRank.index) := by
        have hnd : ((l1 ++ l2).map PathRank.index).Nodup := by
          rw [← heq]
          exact hi
        rw [List.map_append] at hnd
        exact List.disjoint_of_nodup_append hnd
      have hne : rT.index ≠ rF.index := by
        intro hidx
        exact hdisj (List.mem_map_of_mem PathRank.index hrT1)
          (hidx ▸ List.mem_map_of_mem PathRank.index hrF2)
      have hbT := hb rT hrTranks
      have hbF := hb rF hrFranks
      rw [← hpF] at hpT
      rw [List.getD_eq_getElem paths [] hbT,
        List.getD_eq_getElem paths [] hbF] at hpT
      exact hne ((List.Nodup.getElem_inj_iff hp).mp hpT)
    · refine ⟨rF, hrFranks, hpF.symm, ?_⟩
      omega

/-- Witness for C3: a concrete ranking where the top-1 cut falls short and
the full-liquidity slot holds the third path, which is disjoint from the
primary set and alone covers the deficit. -/
theorem getBestPaths_fullLiquidity_disjoint_witness :
    [STPathElement.account 3] ∉
      (getBestPaths
        [[STPathElement.account 1], [STPathElement.account 2],
          [STPathElement.account 3]]
        [⟨5, 1, 4, 0⟩, ⟨4, 1, 3, 1⟩, ⟨3, 1, 7, 2⟩] 1 none 10).primary ∧
    ∃ r, r ∈ ([⟨5, 1, 4, 0⟩, ⟨4, 1, 3, 1⟩, ⟨3, 1, 7, 2⟩] :
        List PathRank) ∧
      [STPathElement.account 3] =
        [[STPathElement.account 1], [STPathElement.account 2],
          [STPathElement.account 3]].getD r.index [] ∧
      (10 : Int) ≤ ((walkRanks
          [[STPathElement.account 1], [STPathElement.account 2],
            [STPathElement.account 3]] none 10
          [⟨5, 1, 4, 0⟩, ⟨4, 1, 3, 1⟩, ⟨3, 1, 7, 2⟩] 1 0).1.map
        PathRank.liquidity).sum + r.liquidity :=
  getBestPaths_fullLiquidity_disjoint
    [[STPathElement.account 1], [STPathElement.account 2],
      [STPathElement.account 3]]
    [⟨5, 1, 4, 0⟩, ⟨4, 1, 3, 1⟩, ⟨3, 1, 7, 2⟩] 1 none 10
    (by decide) (by decide) (by decide) [STPathElement.account 3] (by decide)

end RippledPath
